import Mathlib

/-!
Verification of the incremental line-delimited JSON reassembler from
`src/main.rs`.  Text is modelled as `List Char`; `serde_json` parsing is
modelled by an executable recursive-descent parser over that representation
(`jsonParse` for the generic syntax check used by `is_valid_json`, and
`from_str_record` for the typed decode into `Record`).  The stateful decoder
`parse_line_bufferd`, the per-chunk line splitter (Rust `str::lines`), and the
drain loop `handler` are embedded as pure functions.
-/

/-- Text, modelled as a list of characters (Rust `String` / `&str`). -/
abbrev Str := List Char

/-- The decoded logical unit (Rust `struct Record { id: i32, name: String }`).
The `i32` range restriction is enforced by the decode function
`recordOfJson`, so `id` is stored as an unbounded integer here. -/
structure Record where
  id : Int
  name : Str
deriving DecidableEq, Repr

/-- A parsed JSON number: serde_json distinguishes integer tokens (parsed
into `u64`/`i64`) from everything else (floats, and integers too large for
64 bits, which serde_json silently parses as `f64`). -/
inductive JNum where
  | int (i : Int)
  | flt
deriving DecidableEq, Repr

/-- Generic JSON values, as parsed by serde_json (`IgnoredAny` accepts the
same language). -/
inductive Json where
  | null
  | bool (b : Bool)
  | num (n : JNum)
  | str (s : Str)
  | arr (xs : List Json)
  | obj (kvs : List (Str × Json))
deriving Repr

/-- Mode tag for the single fuelled parsing function `parseJ`. -/
inductive PMode where
  | val
  | members
  | elems
deriving DecidableEq, Repr

/-- Output of `parseJ`, tagged by which production was parsed. -/
inductive POut where
  | v (j : Json)
  | ms (kvs : List (Str × Json))
  | es (xs : List Json)
deriving Repr

/-- JSON whitespace accepted between tokens by serde_json. -/
def isWsChar (c : Char) : Bool :=
  c = ' ' || c = '\t' || c = '\n' || c = '\r'

/-- Drop leading JSON whitespace. -/
def skipWs : Str → Str
  | [] => []
  | c :: cs => if isWsChar c then skipWs cs else c :: cs

/-- ASCII decimal digit test. -/
def isDigitCh (c : Char) : Bool := '0' ≤ c && c ≤ '9'

/-- Value of a decimal digit character. -/
def digVal (c : Char) : Nat := c.toNat - '0'.toNat

/-- ASCII hexadecimal digit test. -/
def isHexCh (c : Char) : Bool :=
  isDigitCh c || ('a' ≤ c && c ≤ 'f') || ('A' ≤ c && c ≤ 'F')

/-- Value of a hexadecimal digit character. -/
def hexDigVal (c : Char) : Nat :=
  if isDigitCh c then c.toNat - '0'.toNat
  else if 'a' ≤ c && c ≤ 'f' then c.toNat - 'a'.toNat + 10
  else c.toNat - 'A'.toNat + 10

/-- The single-character string escapes accepted by JSON. -/
def escCharMap (c : Char) : Option Char :=
  if c = '"' then some '"'
  else if c = '\\' then some '\\'
  else if c = '/' then some '/'
  else if c = 'b' then some (Char.ofNat 8)
  else if c = 'f' then some (Char.ofNat 12)
  else if c = 'n' then some '\n'
  else if c = 'r' then some '\r'
  else if c = 't' then some '\t'
  else none

/-- Parse the body of a JSON string after the opening quote, returning the
decoded content and the rest of the input after the closing quote.  Raw
control characters are rejected, `\uXXXX` escapes are decoded, and surrogate
halves must be correctly paired, as in serde_json. -/
def parseStrBody : Str → Option (Str × Str)
  | [] => none
  | '"' :: cs => some ([], cs)
  | '\\' :: 'u' :: a :: b :: c :: d :: cs =>
    if isHexCh a && isHexCh b && isHexCh c && isHexCh d then
      let h := ((hexDigVal a * 16 + hexDigVal b) * 16 + hexDigVal c) * 16 + hexDigVal d
      if 0xD800 ≤ h && h < 0xDC00 then
        match cs with
        | '\\' :: 'u' :: a2 :: b2 :: c2 :: d2 :: cs2 =>
          if isHexCh a2 && isHexCh b2 && isHexCh c2 && isHexCh d2 then
            let h2 := ((hexDigVal a2 * 16 + hexDigVal b2) * 16 + hexDigVal c2) * 16 + hexDigVal d2
            if 0xDC00 ≤ h2 && h2 < 0xE000 then
              match parseStrBody cs2 with
              | some (s, r) =>
                some (Char.ofNat (0x10000 + (h - 0xD800) * 0x400 + (h2 - 0xDC00)) :: s, r)
              | none => none
            else none
          else none
        | _ => none
      else if 0xDC00 ≤ h && h < 0xE000 then none
      else
        match parseStrBody cs with
        | some (s, r) => some (Char.ofNat h :: s, r)
        | none => none
    else none
  | '\\' :: e :: cs =>
    match escCharMap e with
    | some ch =>
      match parseStrBody cs with
      | some (s, r) => some (ch :: s, r)
      | none => none
    | none => none
  | c :: cs =>
    if c.toNat < 32 then none
    else
      match parseStrBody cs with
      | some (s, r) => some (c :: s, r)
      | none => none

/-- Split off the maximal run of leading decimal digits. -/
def spanDigits : Str → (Str × Str)
  | [] => ([], [])
  | c :: cs =>
    if isDigitCh c then
      let p := spanDigits cs
      (c :: p.1, p.2)
    else ([], c :: cs)

/-- Decimal digits to a natural number, accumulator style. -/
def digitsToNat (acc : Nat) : Str → Nat
  | [] => acc
  | c :: cs => digitsToNat (acc * 10 + digVal c) cs

/-- Parse an optional fraction part `.digits`; returns whether one was
present.  A dot not followed by a digit is a syntax error. -/
def parseFrac (cs : Str) : Option (Bool × Str) :=
  match cs with
  | '.' :: t =>
    match t with
    | d :: _ => if isDigitCh d then some (true, (spanDigits t).2) else none
    | [] => none
  | _ => some (false, cs)

/-- Parse an optional exponent part `e[+-]digits`; returns whether one was
present. -/
def parseExp (cs : Str) : Option (Bool × Str) :=
  match cs with
  | c :: t =>
    if c = 'e' || c = 'E' then
      let t2 := match t with
        | s :: t' => if s = '+' || s = '-' then t' else t
        | [] => t
      match t2 with
      | d :: _ => if isDigitCh d then some (true, (spanDigits t2).2) else none
      | [] => none
    else some (false, cs)
  | [] => some (false, cs)

/-- Parse a JSON number token.  Tokens with a fraction or exponent, and
integer tokens whose magnitude exceeds the `u64`/`i64` range, are parsed by
serde_json as floats (`JNum.flt`); in-range integer tokens keep their exact
value. -/
def parseNumTok (cs : Str) : Option (JNum × Str) :=
  let negp : Bool × Str := match cs with
    | '-' :: t => (true, t)
    | _ => (false, cs)
  match negp.2 with
  | [] => none
  | c :: _ =>
    if !(isDigitCh c) then none
    else
      let ds := (spanDigits negp.2).1
      let cs2 := (spanDigits negp.2).2
      if 1 < ds.length && ds.head? = some '0' then none
      else
        match parseFrac cs2 with
        | none => none
        | some (f, cs3) =>
          match parseExp cs3 with
          | none => none
          | some (e, cs4) =>
            let n := digitsToNat 0 ds
            if f || e then some (.flt, cs4)
            else if negp.1 then
              if n ≤ 9223372036854775808 then some (.int (-(n : Int)), cs4)
              else some (.flt, cs4)
            else
              if n ≤ 18446744073709551615 then some (.int (n : Int), cs4)
              else some (.flt, cs4)

/-- Recursive-descent JSON parser, fuelled to make the recursion structural.
The `depth` argument models serde_json's recursion limit of 128 nested
containers; fuel `2 * length + 8` is always sufficient for the nesting the
input length permits, so fuel exhaustion never decides an answer. -/
def parseJ : Nat → PMode → Nat → Str → Option (POut × Str)
  | 0, _, _, _ => none
  | _ + 1, .val, _, [] => none
  | f + 1, .val, d, c :: cs =>
    if c = 'n' then
      match cs with
      | 'u' :: 'l' :: 'l' :: r => some (.v .null, r)
      | _ => none
    else if c = 't' then
      match cs with
      | 'r' :: 'u' :: 'e' :: r => some (.v (.bool true), r)
      | _ => none
    else if c = 'f' then
      match cs with
      | 'a' :: 'l' :: 's' :: 'e' :: r => some (.v (.bool false), r)
      | _ => none
    else if c = '"' then
      match parseStrBody cs with
      | some (s, r) => some (.v (.str s), r)
      | none => none
    else if c = '\x7b' then
      if d = 0 then none
      else
        match skipWs cs with
        | '\x7d' :: r => some (.v (.obj []), r)
        | cs2 =>
          match parseJ f .members (d - 1) cs2 with
          | some (.ms kvs, r) => some (.v (.obj kvs), r)
          | _ => none
    else if c = '[' then
      if d = 0 then none
      else
        match skipWs cs with
        | ']' :: r => some (.v (.arr []), r)
        | cs2 =>
          match parseJ f .elems (d - 1) cs2 with
          | some (.es xs, r) => some (.v (.arr xs), r)
          | _ => none
    else if c = '-' || isDigitCh c then
      match parseNumTok (c :: cs) with
      | some (n, r) => some (.v (.num n), r)
      | none => none
    else none
  | f + 1, .members, d, cs =>
    match cs with
    | '"' :: cs1 =>
      match parseStrBody cs1 with
      | some (k, r1) =>
        match skipWs r1 with
        | ':' :: r2 =>
          match parseJ f .val d (skipWs r2) with
          | some (.v v, r3) =>
            (match skipWs r3 with
             | ',' :: r4 =>
               match parseJ f .members d (skipWs r4) with
               | some (.ms kvs, r) => some (.ms ((k, v) :: kvs), r)
               | _ => none
             | '\x7d' :: r4 => some (.ms [(k, v)], r4)
             | _ => none)
          | _ => none
        | _ => none
      | none => none
    | _ => none
  | f + 1, .elems, d, cs =>
    match parseJ f .val d cs with
    | some (.v v, r1) =>
      (match skipWs r1 with
       | ',' :: r2 =>
         match parseJ f .elems d (skipWs r2) with
         | some (.es xs, r) => some (.es (v :: xs), r)
         | _ => none
       | ']' :: r2 => some (.es [v], r2)
       | _ => none)
    | _ => none

/-- Full parse of a text as one JSON value: leading whitespace, a value,
trailing whitespace, end of input — exactly what `serde_json::from_str`
requires. -/
def jsonParse (cs : Str) : Option Json :=
  match parseJ (2 * cs.length + 8) .val 128 (skipWs cs) with
  | some (.v v, rest) =>
    match skipWs rest with
    | [] => some v
    | _ => none
  | _ => none

/-- Source `is_valid_json`: `from_str::<IgnoredAny>(data).is_ok()` — the
generic syntactic well-formedness check. -/
def is_valid_json (cs : Str) : Bool := (jsonParse cs).isSome

/-- The characters of the required field name `id`. -/
def idKey : Str := "id".data

/-- The characters of the required field name `name`. -/
def nameKey : Str := "name".data

/-- Walk the members of a JSON object the way serde's derived
`Deserialize for Record` does: `id` must be an in-range `i32` integer token,
`name` must be a string, duplicate occurrences of either field are an error,
unknown fields are ignored, and both fields must be present at the end. -/
def goFields : List (Str × Json) → Option Int → Option Str → Option Record
  | [], some i, some n => some ⟨i, n⟩
  | [], _, _ => none
  | (k, v) :: rest, i?, n? =>
    if k = idKey then
      match i?, v with
      | none, .num (.int i) =>
        if -2147483648 ≤ i ∧ i ≤ 2147483647 then goFields rest (some i) n? else none
      | _, _ => none
    else if k = nameKey then
      match n?, v with
      | none, .str s => goFields rest i? (some s)
      | _, _ => none
    else goFields rest i? n?

/-- Shape-validate a parsed JSON value as a `Record`. -/
def recordOfJson : Json → Option Record
  | .obj kvs => goFields kvs none none
  | _ => none

/-- Source `from_str::<Record>`: syntactic parse, then shape validation. -/
def from_str_record (cs : Str) : Option Record :=
  match jsonParse cs with
  | some v => recordOfJson v
  | none => none

/-- Result of one `parse_line_bufferd` call: the Rust function mutates its
`&mut String` buffer and returns `Result<Option<Record>, AppError>`, so the
model returns the new buffer contents together with the outcome.  `fail`
carries the buffer contents left behind when the `?` operator propagates a
serde error. -/
inductive FeedResult where
  | ok (buf : Str) (rec : Option Record)
  | fail (buf : Str)
deriving Repr

/-- Source `parse_line_bufferd`:

    if buf.is_empty() && is_valid_json(line) { Ok(Some(from_str(line)?)) }
    else { buf.push_str(line);
           if is_valid_json(&buf) { let r = from_str(buf)?; buf.clear(); Ok(Some(r)) }
           else { Ok(None) } }

Note that on the accumulation path a shape error propagates through `?`
before `buf.clear()` runs, so the buffer keeps the full concatenation. -/
def parse_line_bufferd (buf line : Str) : FeedResult :=
  if buf.isEmpty && is_valid_json line then
    match from_str_record line with
    | some r => .ok buf (some r)
    | none => .fail buf
  else
    let buf2 := buf ++ line
    if is_valid_json buf2 then
      match from_str_record buf2 with
      | some r => .ok [] (some r)
      | none => .fail buf2
    else .ok buf2 none

/-- The inner loop of `handler`: feed each line in order, pushing every
emitted record; a decode error aborts immediately (the `?` operator), and the
error value records the buffer contents at that moment. -/
def feedLines : Str → List Record → List Str → Except Str (Str × List Record)
  | buf, recs, [] => .ok (buf, recs)
  | buf, recs, l :: ls =>
    match parse_line_bufferd buf l with
    | .ok b (some r) => feedLines b (recs ++ [r]) ls
    | .ok b none => feedLines b recs ls
    | .fail b => .error b

/-- Split on every `'\n'`, keeping a final empty piece (plain `splitOn`). -/
def splitNL : Str → List Str
  | [] => [[]]
  | c :: cs =>
    if c = '\n' then [] :: splitNL cs
    else
      match splitNL cs with
      | [] => [[c]]
      | h :: t => (c :: h) :: t

/-- Remove one trailing `'\r'`, as Rust's line iterator does to each
newline-terminated piece. -/
def stripCR : Str → Str
  | [] => []
  | [c] => if c = '\r' then [] else [c]
  | c :: cs => c :: stripCR cs

/-- Turn the pieces produced by `splitNL` into the lines Rust's iterator
yields: every piece except the last was terminated by a `'\n'` and has one
trailing `'\r'` removed; the final unterminated piece is kept verbatim,
except that a final empty piece (from a trailing newline) yields no line. -/
def linesOf : List Str → List Str
  | [] => []
  | [p] => if p = [] then [] else [p]
  | p :: ps => stripCR p :: linesOf ps

/-- Rust `str::lines`: split at `'\n'`, strip one `'\r'` from each
newline-terminated piece, drop a final empty piece. -/
def rustLines (cs : Str) : List Str := linesOf (splitNL cs)

/-- Model of `handler`'s drain loop.  The S3 plumbing (configuration, query,
event stream) is out of scope per the spec and is abstracted as the ordered
list of `Records`-event payload texts; each payload is split into lines and
fed to the decoder.  After the stream ends the function returns the collected
records — the source performs no end-of-stream check on the buffer. -/
def handler (chunks : List Str) : Except Str (List Record) :=
  match feedLines [] [] ((chunks.map rustLines).flatten) with
  | .ok (_, recs) => .ok recs
  | .error e => .error e

/-- Decidable check that no proper prefix of `r` is valid JSON.  Every
JSON-Lines record — an object serialization with no trailing whitespace —
satisfies this, because an object text is only syntactically complete at its
final closing brace. -/
def noEarlyB (r : Str) : Bool :=
  (List.range r.length).all fun k => !(is_valid_json (r.take k))

/-- A well-formed JSON-Lines record text `r` together with the `Record` it
decodes to: it decodes successfully, no proper prefix of it is already valid
JSON, and it contains no line-ending characters (a JSON-Lines record lives on
one line). -/
def GoodRecord (r : Str) (rec : Record) : Prop :=
  from_str_record r = some rec ∧ noEarlyB r = true ∧ '\n' ∉ r ∧ '\r' ∉ r

/-- The concatenated JSON-Lines text of a record sequence: records joined by
single `'\n'` separators. -/
def textOf : List Str → Str
  | [] => []
  | r :: rest => r ++ (rest.map (fun x => '\n' :: x)).flatten

/-- `Frag ls rs`: the line sequence `ls` is a blockwise fragmentation of the
record texts `rs` — it splits into consecutive blocks, one per record, each
concatenating to that record's text. -/
inductive Frag : List Str → List Str → Prop where
  | nil : Frag [] []
  | cons (b : List Str) (ls : List Str) (r : Str) (rs : List Str) :
      b.flatten = r → Frag ls rs → Frag (b ++ ls) (r :: rs)

/-- Left brace character. -/
def lb : Char := '\x7b'

/-- Right brace character. -/
def rb : Char := '\x7d'

/-- First record text of the spec's concrete example. -/
def rA : Str := lb :: ("\"id\": 1, \"name\": \"bob\"").data ++ [rb]

/-- The record `rA` decodes to. -/
def recA : Record := ⟨1, "bob".data⟩

/-- Second record text of the spec's concrete example. -/
def rB : Str := lb :: ("\"id\": 2, \"name\": \"ann\"").data ++ [rb]

/-- The record `rB` decodes to. -/
def recB : Record := ⟨2, "ann".data⟩

/-- A truncated record fragment, the start of `rA` with no closing brace. -/
def fragIdOne : Str := lb :: ("\"id\": 1,").data

/-- Middle chunk of a three-chunk partition of `textOf [rA, rB]`: the rest of
`rA`, the separating newline, and the start of `rB`. -/
def chunkX2 : Str :=
  (" \"name\": \"bob\"").data ++ [rb] ++ '\n' :: lb :: ("\"id\": 2, \"name\":").data

/-- Final chunk of that partition: the rest of `rB`. -/
def chunkX3 : Str := (" \"ann\"").data ++ [rb]

/-- First fragment of a three-way split of `rA`. -/
def fragA1 : Str := lb :: ("\"id\"").data

/-- Second fragment of that split. -/
def fragA2 : Str := (": 1, \"name\": \"b").data

/-- Third fragment of that split. -/
def fragA3 : Str := ("ob\"").data ++ [rb]

/-- A structurally valid JSON object missing the required `id` field. -/
def badNoId : Str := lb :: ("\"name\": \"x\"").data ++ [rb]

/-- An object whose `id` is one above `i32::MAX`. -/
def bigIdText : Str := lb :: ("\"id\": 2147483648, \"name\": \"a\"").data ++ [rb]

/-- An object with a small in-range `id`. -/
def smallIdText : Str := lb :: ("\"id\": 7, \"name\": \"a\"").data ++ [rb]

/-- A truncated start of a third record. -/
def fragIdThree : Str := lb :: ("\"id\": 3,").data

/-- A chunk holding one complete record, a newline, and the truncated start
of the next record. -/
def chunkTrail : Str := rA ++ '\n' :: fragIdThree

/-- A pending buffer holding the opening of an object without `id`. -/
def bufN : Str := lb :: ("\"name\":").data

/-- A line completing `bufN` into a shape-mismatching object. -/
def lineN : Str := (" \"x\"").data ++ [rb]

/-- Taking the length of the left part of an append returns it. -/
theorem take_append_self (p q : Str) : (p ++ q).take p.length = p := by
  induction p with
  | nil => simp
  | cons c t ih => simp [ih]

/-- Appending to the right cannot return the left operand unless empty. -/
theorem append_eq_self_right {p q : Str} (h : p ++ q = p) : q = [] := by
  have hl := congrArg List.length h
  simp only [List.length_append] at hl
  exact List.eq_nil_of_length_eq_zero (by omega)

/-- A flatten of all-empty pieces is empty. -/
theorem flatten_nil_of_all_nil {α : Type} {l : List (List α)} (h : ∀ x ∈ l, x = []) :
    l.flatten = [] := by
  induction l with
  | nil => rfl
  | cons x t ih =>
    have hx := h x (List.mem_cons_self x t)
    simp [hx, ih fun y hy => h y (List.mem_cons_of_mem x hy)]

/-- The empty text is not valid JSON. -/
theorem is_valid_json_nil : is_valid_json ([] : Str) = false := rfl

/-- The empty text decodes to no record. -/
theorem from_str_record_nil : from_str_record ([] : Str) = none := rfl

/-- If no proper prefix of `r` is valid JSON, then any strict initial
segment of `r` fails the syntax check. -/
theorem noEarly_prefix {r : Str} (h : noEarlyB r = true) {p q : Str}
    (hpq : p ++ q = r) (hq : q ≠ []) : is_valid_json p = false := by
  have hlen : p.length < r.length := by
    have := congrArg List.length hpq
    simp only [List.length_append] at this
    have hqpos : 0 < q.length := List.length_pos.mpr hq
    omega
  have hk := List.all_eq_true.mp h p.length (List.mem_range.mpr hlen)
  have htake : r.take p.length = p := by rw [← hpq]; exact take_append_self p q
  rw [htake] at hk
  simpa using hk

/-- A good record text passes the generic syntax check. -/
theorem good_valid {r : Str} {rec : Record} (h : GoodRecord r rec) :
    is_valid_json r = true := by
  obtain ⟨h1, -, -, -⟩ := h
  unfold from_str_record at h1
  unfold is_valid_json
  cases hj : jsonParse r with
  | none => rw [hj] at h1; exact absurd h1 (by simp)
  | some v => simp

/-- A good record text is non-empty. -/
theorem good_ne_nil {r : Str} {rec : Record} (h : GoodRecord r rec) : r ≠ [] := by
  intro hr
  rw [hr] at h
  exact absurd h.1 (by rw [from_str_record_nil]; simp)

/-- Fast path of the decoder: empty buffer and a well-formed line are decoded
directly; the buffer stays empty whether the typed decode succeeds or not. -/
theorem plb_empty_valid {line : Str} (h : is_valid_json line = true) :
    parse_line_bufferd [] line =
      (match from_str_record line with
       | some r => FeedResult.ok [] (some r)
       | none => FeedResult.fail []) := by
  unfold parse_line_bufferd
  simp [h]

/-- Accumulation path of the decoder: when the fast path does not apply, the
line is appended verbatim and the combined buffer decides the outcome. -/
theorem plb_acc {buf line : Str} (h : buf = [] → is_valid_json line = false) :
    parse_line_bufferd buf line =
      (if is_valid_json (buf ++ line) = true then
        match from_str_record (buf ++ line) with
        | some r => FeedResult.ok [] (some r)
        | none => FeedResult.fail (buf ++ line)
      else FeedResult.ok (buf ++ line) none) := by
  unfold parse_line_bufferd
  cases buf with
  | nil => simp [h rfl]
  | cons c t => simp

/-- Feeding an empty line to an empty buffer changes nothing. -/
theorem plb_nil_nil : parse_line_bufferd [] [] = FeedResult.ok [] none := rfl

/-- `feedLines` processes an appended line list in two stages. -/
theorem feedLines_append (ls₁ ls₂ : List Str) (buf : Str) (recs : List Record) :
    feedLines buf recs (ls₁ ++ ls₂) =
      (match feedLines buf recs ls₁ with
       | .ok (b, rs) => feedLines b rs ls₂
       | .error e => .error e) := by
  induction ls₁ generalizing buf recs with
  | nil => simp [feedLines]
  | cons l t ih =>
    simp only [List.cons_append, feedLines]
    cases parse_line_bufferd buf l with
    | ok b r => cases r <;> simp [ih]
    | fail b => simp

/-- If a flatten is empty, every piece is empty. -/
theorem all_nil_of_flatten_nil {α : Type} {l : List (List α)} (h : l.flatten = []) :
    ∀ x ∈ l, x = [] := by
  induction l with
  | nil => simp
  | cons x t ih =>
    simp only [List.flatten_cons, List.append_eq_nil] at h
    intro y hy
    rcases List.mem_cons.mp hy with h1 | h2
    · rw [h1]; exact h.1
    · exact ih h.2 y h2

/-- Feeding only empty fragments from an empty buffer is a no-op. -/
theorem feed_empties (ls : List Str) (h : ∀ l ∈ ls, l = []) (recs : List Record) :
    feedLines [] recs ls = .ok ([], recs) := by
  induction ls with
  | nil => rfl
  | cons l t ih =>
    have hl := h l (List.mem_cons_self l t)
    subst hl
    simp only [feedLines, plb_nil_nil]
    exact ih fun y hy => h y (List.mem_cons_of_mem _ hy)

/-- Feeding a block of fragments that completes a good record text from a
proper-prefix buffer emits exactly that record and clears the buffer. -/
theorem feed_block {r : Str} {rec : Record} (hg : GoodRecord r rec) :
    ∀ (b : List Str) (p : Str) (recs : List Record),
      (∃ q, q ≠ [] ∧ p ++ q = r) → p ++ b.flatten = r →
      feedLines p recs b = .ok ([], recs ++ [rec]) := by
  intro b
  induction b with
  | nil =>
    intro p recs hex hjoin
    obtain ⟨q, hq, hpq⟩ := hex
    simp only [List.flatten_nil, List.append_nil] at hjoin
    subst hjoin
    exact absurd (append_eq_self_right hpq) hq
  | cons f b' ih =>
    intro p recs hex hjoin
    have hjoin' : (p ++ f) ++ b'.flatten = r := by
      simpa [List.append_assoc] using hjoin
    by_cases hcomp : p ++ f = r
    · have hb' : b'.flatten = [] := by
        rw [hcomp] at hjoin'
        exact append_eq_self_right hjoin'
      have hval : is_valid_json (p ++ f) = true := hcomp ▸ good_valid hg
      have hfsr : from_str_record (p ++ f) = some rec := hcomp ▸ hg.1
      by_cases hpn : p = []
      · subst hpn
        simp only [List.nil_append] at hval hfsr
        simp only [feedLines, plb_empty_valid hval, hfsr]
        exact feed_empties b' (all_nil_of_flatten_nil hb') _
      · have hstep := @plb_acc p f (fun hpnil => absurd hpnil hpn)
        simp only [feedLines, hstep, hval, if_true, hfsr]
        exact feed_empties b' (all_nil_of_flatten_nil hb') _
    · have hb'ne : b'.flatten ≠ [] := by
        intro h0
        rw [h0, List.append_nil] at hjoin'
        exact hcomp hjoin'
      have hinval : is_valid_json (p ++ f) = false :=
        noEarly_prefix hg.2.1 hjoin' hb'ne
      have hstep := @plb_acc p f
        (fun hpnil => by subst hpnil; simpa using hinval)
      simp only [feedLines, hstep, hinval]
      simp only [Bool.false_eq_true, if_false]
      exact ih (p ++ f) recs ⟨b'.flatten, hb'ne, hjoin'⟩ hjoin'

/-- Feeding fragments that still leave a good record text incomplete only
accumulates: the buffer grows verbatim and nothing is emitted. -/
theorem feed_partial {r : Str} {rec : Record} (hg : GoodRecord r rec) :
    ∀ (b : List Str) (p : Str) (recs : List Record),
      (∃ q, q ≠ [] ∧ (p ++ b.flatten) ++ q = r) →
      feedLines p recs b = .ok (p ++ b.flatten, recs) := by
  intro b
  induction b with
  | nil => intro p recs _; simp [feedLines]
  | cons f b' ih =>
    intro p recs hex
    obtain ⟨q, hq, hpq⟩ := hex
    have hpre : (p ++ f) ++ (b'.flatten ++ q) = r := by
      simpa [List.append_assoc] using hpq
    have hrem : b'.flatten ++ q ≠ [] := by
      intro h0
      rcases List.append_eq_nil.mp h0 with ⟨-, h2⟩
      exact hq h2
    have hinval : is_valid_json (p ++ f) = false := noEarly_prefix hg.2.1 hpre hrem
    have hstep := @plb_acc p f
      (fun hpnil => by subst hpnil; simpa using hinval)
    simp only [feedLines, hstep, hinval, Bool.false_eq_true, if_false]
    have hih := ih (p ++ f) recs ⟨q, hq, by simpa [List.append_assoc] using hpq⟩
    rw [hih]
    simp [List.append_assoc]

/-- Feeding any blockwise fragmentation of a sequence of good record texts
emits exactly the corresponding record sequence, in order, ending with an
empty buffer. -/
theorem feed_frag : ∀ {ls rs : List Str}, Frag ls rs →
    ∀ {recs : List Record}, List.Forall₂ GoodRecord rs recs →
    ∀ recs0, feedLines [] recs0 ls = .ok ([], recs0 ++ recs) := by
  intro ls rs hfrag
  induction hfrag with
  | nil =>
    intro recs hrecs recs0
    cases hrecs
    simp [feedLines]
  | cons b ls r rs hb _ ih =>
    intro recs hrecs recs0
    cases hrecs with
    | cons hgr hrest =>
      rename_i rec recs'
      rw [feedLines_append]
      have h1 := feed_block hgr b [] recs0 ⟨r, good_ne_nil hgr, by simp⟩ (by simpa using hb)
      rw [h1]
      show feedLines [] (recs0 ++ [rec]) ls = _
      rw [ih hrest (recs0 ++ [rec])]
      simp

/-- `splitNL` always yields at least one piece. -/
theorem splitNL_ne_nil (cs : Str) : splitNL cs ≠ [] := by
  cases cs with
  | nil => simp [splitNL]
  | cons c t =>
    by_cases hc : c = '\n'
    · simp [splitNL, hc]
    · cases h : splitNL t with
      | nil => simp [splitNL, hc, h]
      | cons x xs => simp [splitNL, hc, h]

/-- A newline-free text is a single piece. -/
theorem splitNL_no_nl {a : Str} (h : '\n' ∉ a) : splitNL a = [a] := by
  induction a with
  | nil => rfl
  | cons c t ih =>
    have hc : c ≠ '\n' := fun hh => h (hh ▸ List.mem_cons_self c t)
    have ht := ih fun hh => h (List.mem_cons_of_mem c hh)
    simp [splitNL, hc, ht]

/-- Splitting distributes over the first newline. -/
theorem splitNL_append {a : Str} (h : '\n' ∉ a) (y : Str) :
    splitNL (a ++ '\n' :: y) = a :: splitNL y := by
  induction a with
  | nil => simp [splitNL]
  | cons c t ih =>
    have hc : c ≠ '\n' := fun hh => h (hh ▸ List.mem_cons_self c t)
    have ht := ih fun hh => h (List.mem_cons_of_mem c hh)
    simp [splitNL, hc, ht]

/-- Stripping a trailing carriage return from a text without one is the
identity. -/
theorem stripCR_of_no_cr {l : Str} (h : '\r' ∉ l) : stripCR l = l := by
  induction l with
  | nil => rfl
  | cons c cs ih =>
    have hc : c ≠ '\r' := fun hh => h (hh ▸ List.mem_cons_self c cs)
    have hcs : '\r' ∉ cs := fun hh => h (List.mem_cons_of_mem c hh)
    cases cs with
    | nil => simp [stripCR, hc]
    | cons d ds =>
      rw [show stripCR (c :: d :: ds) = c :: stripCR (d :: ds) from rfl, ih hcs]

/-- A nonempty newline-free chunk is one line. -/
theorem rustLines_no_nl {a : Str} (h : '\n' ∉ a) (hne : a ≠ []) :
    rustLines a = [a] := by
  unfold rustLines
  rw [splitNL_no_nl h]
  simp [linesOf, hne]

/-- The lines of a newline-free chunk concatenate back to the chunk. -/
theorem rustLines_flatten_no_nl {c : Str} (h : '\n' ∉ c) :
    (rustLines c).flatten = c := by
  by_cases hc : c = []
  · subst hc; rfl
  · rw [rustLines_no_nl h hc]; simp

/-- Peeling the first newline off a chunk peels its first line. -/
theorem rustLines_split {a : Str} (h1 : '\n' ∉ a) (h2 : '\r' ∉ a) (y : Str) :
    rustLines (a ++ '\n' :: y) = a :: rustLines y := by
  unfold rustLines
  rw [splitNL_append h1]
  cases hy : splitNL y with
  | nil => exact absurd hy (splitNL_ne_nil y)
  | cons p t =>
    rw [show linesOf (a :: p :: t) = stripCR a :: linesOf (p :: t) from rfl,
      stripCR_of_no_cr h2]

/-- Inversion for `Frag` at a cons of record texts. -/
theorem frag_cons_inv {ls : List Str} {s : Str} {rs : List Str}
    (h : Frag ls (s :: rs)) :
    ∃ b ls', ls = b ++ ls' ∧ b.flatten = s ∧ Frag ls' rs := by
  cases h with
  | cons b ls' _ _ hb hf => exact ⟨b, ls', rfl, hb, hf⟩

/-- Inversion for `Frag` at no record texts. -/
theorem frag_nil_inv {ls : List Str} (h : Frag ls []) : ls = [] := by
  cases h; rfl

/-- Processing one chunk advances the cover state: however the chunk falls
across the remaining record texts, its lines extend any fragmentation of what
remains into a fragmentation of the whole. -/
theorem chunk_step : ∀ (rs : List Str) (s₀ c z : Str),
    '\n' ∉ s₀ → '\r' ∉ s₀ →
    (∀ r ∈ rs, '\n' ∉ r ∧ '\r' ∉ r) →
    c ++ z = s₀ ++ (rs.map (fun r => '\n' :: r)).flatten →
    ∃ (s₁ : Str) (rs₁ : List Str),
      ('\n' ∉ s₁) ∧ ('\r' ∉ s₁) ∧ (∀ r ∈ rs₁, '\n' ∉ r ∧ '\r' ∉ r) ∧
      z = s₁ ++ (rs₁.map (fun r => '\n' :: r)).flatten ∧
      (∀ ls, Frag ls (s₁ :: rs₁) → Frag (rustLines c ++ ls) (s₀ :: rs)) := by
  intro rs
  induction rs with
  | nil =>
    intro s₀ c z h1 h2 _ heq
    simp only [List.map_nil, List.flatten_nil, List.append_nil] at heq
    have hcn : '\n' ∉ c := fun hc => h1 (heq ▸ List.mem_append_left z hc)
    refine ⟨z, [], fun hz => h1 (heq ▸ List.mem_append_right c hz),
      fun hz => h2 (heq ▸ List.mem_append_right c hz), by simp, by simp, ?_⟩
    intro ls hf
    obtain ⟨b, ls', rfl, hb, hf'⟩ := frag_cons_inv hf
    have hls' := frag_nil_inv hf'
    subst hls'
    have hfr : Frag ((rustLines c ++ b) ++ []) [s₀] :=
      Frag.cons _ [] s₀ []
        (by rw [List.flatten_append, rustLines_flatten_no_nl hcn, hb, heq]) Frag.nil
    simpa using hfr
  | cons r rs₂ ih =>
    intro s₀ c z h1 h2 h3 heq
    simp only [List.map_cons, List.flatten_cons] at heq
    rcases List.append_eq_append_iff.mp heq with ⟨a', ha1, ha2⟩ | ⟨c', hc1, hc2⟩
    · -- the chunk ends inside the current record text
      have hcn : '\n' ∉ c := fun hc => h1 (ha1 ▸ List.mem_append_left a' hc)
      refine ⟨a', r :: rs₂, fun hz => h1 (ha1 ▸ List.mem_append_right c hz),
        fun hz => h2 (ha1 ▸ List.mem_append_right c hz), h3, by simpa using ha2, ?_⟩
      intro ls hf
      obtain ⟨b, ls', rfl, hb, hf'⟩ := frag_cons_inv hf
      have hfr : Frag ((rustLines c ++ b) ++ ls') (s₀ :: r :: rs₂) :=
        Frag.cons _ ls' s₀ (r :: rs₂)
          (by rw [List.flatten_append, rustLines_flatten_no_nl hcn, hb, ha1]) hf'
      simpa [List.append_assoc] using hfr
    · -- the chunk covers all of the current record text
      cases c' with
      | nil =>
        -- the chunk ends exactly at the end of the current record text
        rw [List.append_nil] at hc1
        refine ⟨[], r :: rs₂, by simp, by simp, h3, by simpa using hc2.symm, ?_⟩
        intro ls hf
        obtain ⟨b, ls', rfl, hb, hf'⟩ := frag_cons_inv hf
        have hcn : '\n' ∉ c := hc1 ▸ h1
        have hfr : Frag ((rustLines c ++ b) ++ ls') (s₀ :: r :: rs₂) :=
          Frag.cons _ ls' s₀ (r :: rs₂)
            (by rw [List.flatten_append, rustLines_flatten_no_nl hcn, hb,
              List.append_nil, hc1]) hf'
        simpa [List.append_assoc] using hfr
      | cons ch c₂ =>
        -- the chunk continues past the separating newline
        have hch : ch = '\n' ∧ r ++ (rs₂.map (fun x => '\n' :: x)).flatten = c₂ ++ z := by
          have := hc2
          simp only [List.cons_append] at this
          exact ⟨(List.cons.injEq _ _ _ _ ▸ this).1.symm, (List.cons.injEq _ _ _ _ ▸ this).2⟩
        obtain ⟨rfl, hc2'⟩ := hch
        obtain ⟨s₁, rs₁, g1, g2, g3, gz, K⟩ :=
          ih r c₂ z (h3 r (List.mem_cons_self r rs₂)).1 (h3 r (List.mem_cons_self r rs₂)).2
            (fun x hx => h3 x (List.mem_cons_of_mem r hx)) hc2'.symm
        refine ⟨s₁, rs₁, g1, g2, g3, gz, ?_⟩
        intro ls hf
        have hK := K ls hf
        have hcform : c = s₀ ++ '\n' :: c₂ := hc1
        rw [hcform, rustLines_split h1 h2 c₂]
        have hfr : Frag ([s₀] ++ (rustLines c₂ ++ ls)) (s₀ :: r :: rs₂) :=
          Frag.cons [s₀] _ s₀ (r :: rs₂) (by simp) hK
        simpa using hfr

/-- Every chunking of the JSON-Lines text of a record sequence yields, after
per-chunk line splitting, a blockwise fragmentation of the record texts. -/
theorem lines_cover : ∀ (cs : List Str) (s₀ : Str) (rs : List Str),
    '\n' ∉ s₀ → '\r' ∉ s₀ → (∀ r ∈ rs, '\n' ∉ r ∧ '\r' ∉ r) →
    cs.flatten = s₀ ++ (rs.map (fun r => '\n' :: r)).flatten →
    Frag ((cs.map rustLines).flatten) (s₀ :: rs) := by
  intro cs
  induction cs with
  | nil =>
    intro s₀ rs _ _ _ h
    have h' := h.symm
    rcases List.append_eq_nil.mp h' with ⟨hs, hrs⟩
    have hrs' : rs = [] := by
      cases rs with
      | nil => rfl
      | cons x t => simp at hrs
    subst hs; subst hrs'
    have : Frag (([] : List Str) ++ []) [[]] := Frag.cons [] [] [] [] rfl Frag.nil
    simpa using this
  | cons c cs' ih =>
    intro s₀ rs h1 h2 h3 h
    have h' : c ++ cs'.flatten = s₀ ++ (rs.map (fun r => '\n' :: r)).flatten := by
      simpa using h
    obtain ⟨s₁, rs₁, g1, g2, g3, gshape, K⟩ := chunk_step rs s₀ c cs'.flatten h1 h2 h3 h'
    have hF := ih s₁ rs₁ g1 g2 g3 gshape
    have := K _ hF
    simpa using this

/-- Record texts related to records by `GoodRecord` are free of line-ending
characters. -/
theorem good_free {rs : List Str} {recs : List Record}
    (h : List.Forall₂ GoodRecord rs recs) : ∀ x ∈ rs, '\n' ∉ x ∧ '\r' ∉ x := by
  induction h with
  | nil => simp
  | cons hg _ ih =>
    intro x hx
    rcases List.mem_cons.mp hx with rfl | hx'
    · exact ⟨hg.2.2.1, hg.2.2.2⟩
    · exact ih x hx'

/-- The example pair `rA`, `recA` is a good record. -/
theorem goodA : GoodRecord rA recA := ⟨rfl, rfl, by decide, by decide⟩

/-- The example pair `rB`, `recB` is a good record. -/
theorem goodB : GoodRecord rB recB := ⟨rfl, rfl, by decide, by decide⟩

/-- C1, counterexample: a stream whose only chunk is a truncated record
leaves the pending buffer non-empty at end-of-stream, yet `handler` returns
success (an empty record list) instead of an
IncompleteTrailingRecordError-class error — the drain loop performs no
end-of-stream buffer check. -/
theorem c1_counterexample :
    fragIdOne ≠ [] ∧
    feedLines [] [] (([fragIdOne].map rustLines).flatten) =
      .ok (fragIdOne, []) ∧
    handler [fragIdOne] = .ok [] := by
  refine ⟨by decide, ?_, ?_⟩ <;> rfl

/-- C1, amended: at end-of-stream with a non-empty pending buffer, `handler`
returns success with exactly the records completed so far; the trailing
fragment is silently dropped — no spurious final Record is emitted and no
error is raised. -/
theorem c1_amended_trailing_dropped (chunks : List Str) (buf : Str)
    (recs : List Record)
    (h : feedLines [] [] ((chunks.map rustLines).flatten) = .ok (buf, recs))
    (_hb : buf ≠ []) :
    handler chunks = .ok recs := by
  unfold handler
  rw [h]

/-- C1 witness: a concrete stream whose final record is truncated — the
drain ends with the non-empty buffer `fragIdThree`, and `handler` returns
only the completed record. -/
theorem c1_witness : handler [chunkTrail] = .ok [recA] :=
  c1_amended_trailing_dropped [chunkTrail] fragIdThree [recA] rfl (by decide)

/-- C2: for every finite sequence of JSON-Lines record texts — each decoding
to a `Record`, with no proper prefix already valid JSON (as holds for any
object serialization without trailing whitespace) and free of line-ending
characters — and every partition of the concatenated text into chunks,
including boundaries that split a record across more than two fragments and
chunks holding several complete records plus one partial, splitting each
chunk into lines and feeding every line in order to `parse_line_bufferd`
emits exactly the original record sequence, in order and length-preserving,
with no loss and no duplication, ending with an empty buffer. -/
theorem c2_no_loss_no_duplication (rs : List Str) (recs : List Record)
    (cs : List Str) (hgood : List.Forall₂ GoodRecord rs recs)
    (hchunks : cs.flatten = textOf rs) :
    feedLines [] [] ((cs.map rustLines).flatten) = .ok ([], recs) := by
  cases rs with
  | nil =>
    cases hgood
    have hflat : cs.flatten = [] := by simpa [textOf] using hchunks
    have hnil : ∀ c ∈ cs, c = [] := all_nil_of_flatten_nil hflat
    have hlines : (cs.map rustLines).flatten = [] := by
      apply flatten_nil_of_all_nil
      intro x hx
      obtain ⟨c, hc, rfl⟩ := List.mem_map.mp hx
      rw [hnil c hc]
      rfl
    rw [hlines]
    rfl
  | cons r rest =>
    cases hgood with
    | cons hgr hrest =>
      rename_i rec recs'
      have hfree := good_free (List.Forall₂.cons hgr hrest)
      have hF := lines_cover cs r rest
        (hfree r (List.mem_cons_self r rest)).1
        (hfree r (List.mem_cons_self r rest)).2
        (fun x hx => hfree x (List.mem_cons_of_mem r hx))
        (by simpa [textOf] using hchunks)
      have := feed_frag hF (List.Forall₂.cons hgr hrest) []
      simpa using this

/-- C2 witness: the spec's two-record example, partitioned into three chunks
that split the first record mid-object and pack the rest of it, the newline
and part of the second record into one middle chunk. -/
theorem c2_witness :
    feedLines [] [] ((([fragIdOne, chunkX2, chunkX3]).map rustLines).flatten) =
      .ok ([], [recA, recB]) :=
  c2_no_loss_no_duplication [rA, rB] [recA, recB] [fragIdOne, chunkX2, chunkX3]
    (List.Forall₂.cons goodA (List.Forall₂.cons goodB List.Forall₂.nil)) rfl

/-- C3: splitting one good record text (valid JSON, decoding to a `Record`,
no proper prefix already valid) into two or more arbitrary non-empty
fragments and feeding them as successive lines from an empty buffer emits
exactly one Record — the decode of the unsplit text — on the call consuming
the final fragment, while every earlier call returns no record and only
accumulates the fragments fed so far. -/
theorem c3_split_reassembly (r : Str) (rec : Record) (frags : List Str)
    (hg : GoodRecord r rec) (hj : frags.flatten = r) (_hlen : 2 ≤ frags.length)
    (hne : ∀ f ∈ frags, f ≠ []) :
    feedLines [] [] frags = .ok ([], [rec]) ∧
    ∀ k, k + 1 < frags.length →
      feedLines [] [] (frags.take (k + 1)) =
        .ok ((frags.take (k + 1)).flatten, []) := by
  constructor
  · have := feed_block hg frags [] [] ⟨r, good_ne_nil hg, by simp⟩ (by simpa using hj)
    simpa using this
  · intro k hk
    have hsplit : (frags.take (k + 1)).flatten ++ (frags.drop (k + 1)).flatten = r := by
      rw [← List.flatten_append, List.take_append_drop, hj]
    have hdrop_ne : frags.drop (k + 1) ≠ [] := by
      intro h0
      have := congrArg List.length h0
      simp only [List.length_drop, List.length_nil] at this
      omega
    have hdne : (frags.drop (k + 1)).flatten ≠ [] := by
      cases hd : frags.drop (k + 1) with
      | nil => exact absurd hd hdrop_ne
      | cons f t =>
        have hf : f ≠ [] := hne f (List.mem_of_mem_drop (by
          rw [hd]; exact List.mem_cons_self f t))
        simp only [List.flatten_cons]
        intro h0
        rcases List.append_eq_nil.mp h0 with ⟨h1, -⟩
        exact hf h1
    have := feed_partial hg (frags.take (k + 1)) [] []
      ⟨(frags.drop (k + 1)).flatten, hdne, by simpa using hsplit⟩
    simpa using this

/-- C3 witness: `rA` split into three non-empty fragments reassembles into
exactly one `recA` on the final fragment. -/
theorem c3_witness :
    feedLines [] [] [fragA1, fragA2, fragA3] = .ok ([], [recA]) :=
  (c3_split_reassembly rA recA [fragA1, fragA2, fragA3] goodA rfl
    (by decide) (by decide)).1

/-- C4: with an empty buffer and a line that alone is structurally
well-formed JSON, the decoder decodes the line directly — returning the
Record when the typed decode succeeds — and the buffer is still empty
afterwards: the line is never appended to the buffer on this path, in the
decode-error case included. -/
theorem c4_fast_path (line : Str) (h : is_valid_json line = true) :
    parse_line_bufferd [] line =
      (match from_str_record line with
       | some r => FeedResult.ok [] (some r)
       | none => FeedResult.fail []) :=
  plb_empty_valid h

/-- C4 witness: feeding the whole of `rA` to an empty buffer returns `recA`
directly and the buffer stays empty. -/
theorem c4_witness : parse_line_bufferd [] rA = FeedResult.ok [] (some recA) :=
  c4_fast_path rA rfl

/-- C5: when the fast path does not apply (buffer non-empty, or the line
alone not well-formed), the line is appended verbatim with no separator;
then, if the buffer's contents are well-formed JSON they are decoded, the
buffer is cleared and the Record returned, and if they are not well-formed
the call returns success with no record yet. -/
theorem c5_accumulation (buf line : Str)
    (h : buf = [] → is_valid_json line = false) :
    parse_line_bufferd buf line =
      (if is_valid_json (buf ++ line) = true then
        match from_str_record (buf ++ line) with
        | some r => FeedResult.ok [] (some r)
        | none => FeedResult.fail (buf ++ line)
      else FeedResult.ok (buf ++ line) none) :=
  plb_acc h

/-- C5 witness: with the first fragment of `rA` pending, feeding the rest of
the record completes the buffer, decodes it, clears it and returns `recA`. -/
theorem c5_witness :
    parse_line_bufferd fragA1 (fragA2 ++ fragA3) = FeedResult.ok [] (some recA) :=
  c5_accumulation fragA1 (fragA2 ++ fragA3) (fun hh => absurd hh (by decide))

/-- C6: a structurally well-formed text (a fast-path line, or an accumulated
buffer) that does not match the Record shape makes `parse_line_bufferd`
return an error, and the drain loop propagates it and halts: whatever lines
follow are never fed and no further Records are emitted. -/
theorem c6_shape_mismatch_halts (ls₁ : List Str) (bad : Str) (ls₂ : List Str)
    (buf : Str) (recs : List Record)
    (h1 : feedLines [] [] ls₁ = .ok (buf, recs))
    (h2 : is_valid_json (buf ++ bad) = true)
    (h3 : from_str_record (buf ++ bad) = none) :
    feedLines [] [] (ls₁ ++ bad :: ls₂) =
      .error (if buf.isEmpty then [] else buf ++ bad) := by
  rw [feedLines_append, h1]
  show feedLines buf recs (bad :: ls₂) = _
  cases buf with
  | nil =>
    simp only [List.nil_append] at h2 h3
    simp only [feedLines, plb_empty_valid h2, h3]
    rfl
  | cons c t =>
    have hstep := @plb_acc (c :: t) bad (fun hh => by simp at hh)
    simp only [List.cons_append] at h2 h3 hstep
    simp [feedLines, hstep, h2, h3]

/-- C6 witness: a structurally valid object missing `id` halts the stream
immediately — the well-formed record queued after it is never decoded. -/
theorem c6_witness : feedLines [] [] ([] ++ badNoId :: [rA]) = .error [] :=
  c6_shape_mismatch_halts [] badNoId [rA] [] [] rfl rfl rfl

/-- C7: whenever a call to the decoder returns a Record, the pending buffer
is empty immediately after the call — the buffer is cleared the instant a
complete record is recognized and emitted. -/
theorem c7_buffer_cleared_on_emit (buf line buf' : Str) (r : Record)
    (h : parse_line_bufferd buf line = .ok buf' (some r)) : buf' = [] := by
  by_cases hbuf : buf = []
  · subst hbuf
    by_cases hv : is_valid_json line = true
    · rw [plb_empty_valid hv] at h
      cases hf : from_str_record line with
      | some rr => rw [hf] at h; cases h; rfl
      | none => rw [hf] at h; exact absurd h (by simp)
    · have hv' : is_valid_json line = false := by
        cases hvv : is_valid_json line
        · rfl
        · exact absurd hvv hv
      rw [plb_acc (fun _ => hv')] at h
      by_cases hv2 : is_valid_json ([] ++ line) = true
      · rw [if_pos hv2] at h
        cases hf : from_str_record ([] ++ line) with
        | some rr => rw [hf] at h; cases h; rfl
        | none => rw [hf] at h; exact absurd h (by simp)
      · rw [if_neg hv2] at h
        exact absurd h (by simp)
  · rw [plb_acc (fun hh => absurd hh hbuf)] at h
    by_cases hv2 : is_valid_json (buf ++ line) = true
    · rw [if_pos hv2] at h
      cases hf : from_str_record (buf ++ line) with
      | some rr => rw [hf] at h; cases h; rfl
      | none => rw [hf] at h; exact absurd h (by simp)
    · rw [if_neg hv2] at h
      exact absurd h (by simp)

/-- C7 witness: completing `rA` from its pending first fragment emits the
record, and the theorem confirms the post-call buffer is empty. -/
theorem c7_witness :
    parse_line_bufferd fragA1 (fragA2 ++ fragA3) = FeedResult.ok [] (some recA) ∧
    ([] : Str) = [] :=
  ⟨rfl, c7_buffer_cleared_on_emit fragA1 (fragA2 ++ fragA3) [] recA rfl⟩

/-- C8: feeding the empty line while the buffer is empty or not yet
well-formed (the empty buffer is itself not valid JSON) returns success with
no record and leaves the buffer contents unchanged — the empty line is
folded in as a no-op. -/
theorem c8_empty_line (buf : Str) (h : is_valid_json buf = false) :
    parse_line_bufferd buf [] = .ok buf none := by
  have hstep := @plb_acc buf [] (fun _ => is_valid_json_nil)
  rw [List.append_nil] at hstep
  rw [hstep, h]
  simp

/-- C8 witness: an empty line fed while `fragA1` is pending changes
nothing. -/
theorem c8_witness : parse_line_bufferd fragA1 [] = FeedResult.ok fragA1 none :=
  c8_empty_line fragA1 rfl

/-- C9: on the accumulation path, when the combined buffer is well-formed
JSON but fails the typed decode, the call returns an error with the buffer
NOT cleared: it still holds the full concatenation including the failing
line, so the decoder state is not reset on error. -/
theorem c9_error_keeps_buffer (buf line : Str)
    (h0 : buf = [] → is_valid_json line = false)
    (h2 : is_valid_json (buf ++ line) = true)
    (h3 : from_str_record (buf ++ line) = none) :
    parse_line_bufferd buf line = .fail (buf ++ line) := by
  rw [plb_acc h0, if_pos h2, h3]

/-- C9 witness: accumulating a shape-mismatching object leaves the full
concatenation `bufN ++ lineN` in the buffer at the moment of the error. -/
theorem c9_witness :
    parse_line_bufferd bufN lineN = FeedResult.fail (bufN ++ lineN) :=
  c9_error_keeps_buffer bufN lineN (fun hh => absurd hh (by decide)) rfl rfl

/-- C10: the Record identifier is a 32-bit signed integer: a line parsing as
an object binding `id` to an integer token and `name` to a string decodes
exactly when the integer lies in `[-2147483648, 2147483647]`, and produces an
error rather than a Record otherwise. -/
theorem c10_id_is_i32 (cs : Str) (i : Int) (s : Str)
    (h : jsonParse cs = some (.obj [(idKey, .num (.int i)), (nameKey, .str s)])) :
    parse_line_bufferd [] cs =
      (if -2147483648 ≤ i ∧ i ≤ 2147483647 then FeedResult.ok [] (some ⟨i, s⟩)
       else FeedResult.fail []) := by
  have hv : is_valid_json cs = true := by
    unfold is_valid_json
    rw [h]
    rfl
  have hne : ¬(nameKey = idKey) := by decide
  by_cases hr : -2147483648 ≤ i ∧ i ≤ 2147483647
  · have hfsr : from_str_record cs = some ⟨i, s⟩ := by
      unfold from_str_record
      rw [h]
      simp [recordOfJson, goFields, hr, hne]
    rw [plb_empty_valid hv, hfsr, if_pos hr]
  · have hfsr : from_str_record cs = none := by
      unfold from_str_record
      rw [h]
      simp [recordOfJson, goFields, hr, hne]
    rw [plb_empty_valid hv, hfsr, if_neg hr]

/-- C10 witness: id 7 decodes exactly; id 2147483648 — one above `i32::MAX`,
still a perfectly well-formed JSON integer — produces an error. -/
theorem c10_witness :
    parse_line_bufferd [] smallIdText = FeedResult.ok [] (some ⟨7, ['a']⟩) ∧
    parse_line_bufferd [] bigIdText = FeedResult.fail [] :=
  ⟨c10_id_is_i32 smallIdText 7 ['a'] rfl,
   c10_id_is_i32 bigIdText 2147483648 ['a'] rfl⟩
